import Mathlib

/-!
Verification of `segmented_sieve_gaps.py` (repository Quant).

Shallow embedding of the three components of the program:

* `simple_sieve` — the flat sieve of Eratosthenes (`simple_sieve`, lines 15-28);
* `segmented_sieve` — the segmented prime generator with its pair callback
  (`segmented_sieve`, lines 30-85); the generator is embedded as a function
  returning the list of yielded primes together with the list of
  `(prime, next_prime)` callback invocations, in order;
* `GapAnalyzer` / `process_prime` — the streaming gap accumulator
  (lines 87-121).

Python `int(math.sqrt(limit))` is embedded as `Nat.sqrt limit` (the floor
square root; `math.sqrt` on a double is exact on the magnitudes the program
handles, and the program only needs `sqrt_limit` to be at least the floor
square root).  The arbitrary-precision `Decimal` arithmetic (context
precision 50) of the accumulator is embedded as exact arithmetic: running
products over `ℚ` and `Decimal.ln` as `Real.log`.
-/

/-- Python `range(start, stop, step)` for a positive `step`, as a list. -/
def pyRange (start stop step : Nat) : List Nat :=
  List.range' start ((stop - start + step - 1) / step) step

/-- `simple_sieve(limit)` (lines 15-28): flat sieve of Eratosthenes.
Returns `[i for i in range(limit + 1) if is_prime[i]]`. -/
def simple_sieve (limit : Nat) : List Nat :=
  if limit < 2 then []
  else
    let is_prime0 := ((List.replicate (limit + 1) true).set 0 false).set 1 false
    let is_prime :=
      (pyRange 2 (Nat.sqrt limit + 1) 1).foldl
        (fun arr i =>
          if arr.getD i false then
            (pyRange (i * i) (limit + 1) i).foldl (fun a j => a.set j false) arr
          else arr)
        is_prime0
    (List.range (limit + 1)).filter (fun i => is_prime.getD i false)

/-- The marking phase of one segment `[low, high]` (lines 58-66): a fresh
all-`true` buffer of width `high - low + 1`, in which every `p` in
`small_primes` marks the slots of its multiples `j` with
`max(p*p, ((low + p - 1)//p)*p) ≤ j ≤ high` as composite. -/
def markSegment (low high : Nat) (small_primes : List Nat) : List Bool :=
  small_primes.foldl
    (fun seg p =>
      (pyRange (max (p * p) ((low + p - 1) / p * p)) (high + 1) p).foldl
        (fun s j => s.set (j - low) false) seg)
    (List.replicate (high - low + 1) true)

/-- The collection phase of one segment (lines 69-77): scan the buffer left to
right; a surviving slot whose value `low + i` is at least 2 is a prime: the
callback receives the pending pair `(last_prime, current_prime)` (if any), the
prime is yielded, and it becomes the new pending `last_prime`.  The
accumulator triple is `(yielded so far, callback trace so far, last_prime)`. -/
def collectSeg : Nat → List Bool → List Nat × List (Nat × Option Nat) × Option Nat →
    List Nat × List (Nat × Option Nat) × Option Nat
  | _, [], acc => acc
  | low, b :: rest, (ys, ps, lst) =>
    if b && decide (2 ≤ low) then
      collectSeg (low + 1) rest
        (ys ++ [low],
          (match lst with
            | some lp => ps ++ [(lp, some low)]
            | none => ps),
          some low)
    else
      collectSeg (low + 1) rest (ys, ps, lst)

/-- The segment loop of `segmented_sieve` (lines 53-81): while `low ≤ limit`,
clip `high` to `limit`, sieve and collect the segment `[low, high]`, then
advance to `low = high + 1`, `high = low + segment_size`.  (The source keeps
`high` in a mutable variable; on entry to every iteration it equals
`low + segment_size`, which is how it is computed here.) -/
def segLoop (limit segment_size : Nat) (small_primes : List Nat) :
    Nat → List Nat × List (Nat × Option Nat) × Option Nat →
    List Nat × List (Nat × Option Nat) × Option Nat
  | low, acc =>
    if _h : low ≤ limit then
      segLoop limit segment_size small_primes
        ((if low + segment_size > limit then limit else low + segment_size) + 1)
        (collectSeg low
          (markSegment low
            (if low + segment_size > limit then limit else low + segment_size)
            small_primes)
          acc)
    else acc
termination_by low => limit + 1 - low
decreasing_by
  split <;> omega

/-- `segmented_sieve(limit, segment_size, callback)` (lines 30-85), embedded as
the pair of (the list of yielded primes, the list of `(prime, next_prime)`
callback invocations in order, with `none` as the Python `None` sentinel).
After the loop, the final pending prime is reported once with the sentinel. -/
def segmented_sieve (limit : Nat) (segment_size : Nat) :
    List Nat × List (Nat × Option Nat) :=
  let sqrt_limit := Nat.sqrt limit + 1
  let small_primes := simple_sieve sqrt_limit
  match segLoop limit segment_size small_primes 0 ([], [], none) with
  | (ys, ps, some lp) => (ys, ps ++ [(lp, none)])
  | (ys, ps, none) => (ys, ps)

/-- One gap family record of `GapAnalyzer.gap_data` (lines 91-96).  `product`
is the `Decimal` running product, embedded exactly over `ℚ`; `log_product` is
the running sum of `Decimal.ln` values, embedded exactly over `ℝ`. -/
structure GapFamily where
  count : Nat
  product : ℚ
  log_product : ℝ
  primes : List Nat

/-- The `defaultdict` default (lines 91-96): identity product, zero log sum,
zero count, no sample primes. -/
def emptyFamily : GapFamily :=
  { count := 0, product := 1, log_product := 0, primes := [] }

/-- `gap_data`: a finite mapping from gap value to `GapFamily`, embedded as an
association list in insertion order (Python dicts preserve insertion order). -/
abbrev GapMap := List (Int × GapFamily)

/-- Reading `gap_data[gap]` under `defaultdict` semantics: the stored family,
or the default for an absent key. -/
def findD (m : GapMap) (g : Int) : GapFamily :=
  (List.lookup g m).getD emptyFamily

/-- Writing `gap_data[gap] = f`: replace the entry in place if the key is
present, otherwise append it (insertion order). -/
def store : GapMap → Int → GapFamily → GapMap
  | [], g, f => [(g, f)]
  | kv :: rest, g, f =>
    if kv.1 = g then (g, f) :: rest else kv :: store rest g f

/-- The mutable state of a `GapAnalyzer` (lines 90-98). -/
structure GapAnalyzer where
  gap_data : GapMap
  total_primes : Nat
  last_prime : Option Nat

/-- `GapAnalyzer.__init__` (lines 90-98). -/
def initAnalyzer : GapAnalyzer :=
  { gap_data := [], total_primes := 0, last_prime := none }

/-- `GapAnalyzer.process_prime(prime, next_prime)` (lines 100-121): increment
`total_primes`; if `next_prime` is the sentinel, return; otherwise compute the
gap and the contribution `p²/(p² − 1)`, multiply it into the gap family's
product, add its natural log to the family's log sum, and append `prime` to
the family's sample list if that list has fewer than 20 entries. -/
noncomputable def process_prime (s : GapAnalyzer) (prime : Nat)
    (next_prime : Option Nat) : GapAnalyzer :=
  let s' := { s with total_primes := s.total_primes + 1 }
  match next_prime with
  | none => s'
  | some np =>
    let gap : Int := (np : Int) - (prime : Int)
    let p_squared : ℚ := (prime : ℚ) * (prime : ℚ)
    let contribution : ℚ := p_squared / (p_squared - 1)
    let fam := findD s'.gap_data gap
    let fam' : GapFamily :=
      { count := fam.count + 1
        product := fam.product * contribution
        log_product := fam.log_product + Real.log (contribution : ℝ)
        primes :=
          if fam.primes.length < 20 then fam.primes ++ [prime] else fam.primes }
    { s' with gap_data := store s'.gap_data gap fam' }

/-- Feeding a list of callback pairs to a fresh `GapAnalyzer` one at a time,
exactly as `progress_callback` does (lines 202-204). -/
noncomputable def runAnalyzer (pairs : List (Nat × Option Nat)) : GapAnalyzer :=
  pairs.foldl (fun s pr => process_prime s pr.1 pr.2) initAnalyzer

/-- Trusted reference: the ordered list of all primes in `[0, limit]`,
straight from Mathlib's `Nat.Prime`. -/
def primesUpTo (limit : Nat) : List Nat :=
  (List.range (limit + 1)).filter (fun i => decide (Nat.Prime i))

/-- The contribution term `p²/(p² − 1)` of a prime `p` (lines 110-112),
in exact rational arithmetic. -/
def contribTerm (p : Nat) : ℚ :=
  ((p : ℚ) * (p : ℚ)) / ((p : ℚ) * (p : ℚ) - 1)

/-- The adjacent pairs `(p, some next_p)` of a list of primes, in order. -/
def innerPairs : List Nat → List (Nat × Option Nat)
  | a :: b :: t => (a, some b) :: innerPairs (b :: t)
  | _ => []

/-- The full callback trace belonging to a yielded prime list: all adjacent
pairs, then the final prime paired with the sentinel. -/
def pairStream (ys : List Nat) : List (Nat × Option Nat) :=
  innerPairs ys ++
    (match ys.getLast? with
      | some lp => [(lp, none)]
      | none => [])

/-- The primes delivered to the accumulator whose pair has gap `g`, in
delivery order. -/
def delivered (pairs : List (Nat × Option Nat)) (g : Int) : List Nat :=
  pairs.filterMap (fun pr =>
    match pr.2 with
    | some np => if (np : Int) - (pr.1 : Int) = g then some pr.1 else none
    | none => none)

/-- The sum of the `count` fields over all gap families of an analyzer. -/
def sumCounts (s : GapAnalyzer) : Nat :=
  (s.gap_data.map (fun kv => kv.2.count)).sum

/-- Pair lists on which `process_prime` raises no exception in Python: every
delivered prime is at least 2 (so the contribution term is defined and
positive, and its `Decimal` logarithm exists). -/
def wfPairs (pairs : List (Nat × Option Nat)) : Prop :=
  ∀ pr ∈ pairs, 2 ≤ pr.1

/-- The loop-variable update of one iteration of the `while low <= limit`
loop of `segmented_sieve` (lines 53-81), over ℤ so that a negative
`segment_size` can be analyzed: clip `high` to `limit`, then
`low = high + 1; high = low + segment_size`.  The loop runs while
`low ≤ limit`; on entry `(low, high) = (0, segment_size)`. -/
def segLoopVars (limit segment_size : Int) (st : Int × Int) : Int × Int :=
  ((if st.2 > limit then limit else st.2) + 1,
    (if st.2 > limit then limit else st.2) + 1 + segment_size)

/-- Specification view of the collection phase: the values `low + i` of the
surviving slots with `low + i ≥ 2`, in order. -/
def survivorsFrom : Nat → List Bool → List Nat
  | _, [] => []
  | low, b :: rest =>
    (if b && decide (2 ≤ low) then [low] else []) ++ survivorsFrom (low + 1) rest

/-! ### Arithmetic facts about `pyRange` -/

theorem lt_ceilDiv_iff {s d i : Nat} (hs : 0 < s) :
    i < (d + s - 1) / s ↔ s * i < d := by
  constructor
  · intro h
    have h2 : (i + 1) * s ≤ d + s - 1 := (Nat.le_div_iff_mul_le hs).1 h
    have h3 : i * s + s ≤ d + s - 1 := by
      rw [Nat.add_mul, one_mul] at h2; exact h2
    rw [Nat.mul_comm]
    omega
  · intro h
    refine (Nat.le_div_iff_mul_le hs).2 ?_
    have h' : i * s < d := by rw [Nat.mul_comm] at h; exact h
    rw [Nat.succ_mul]
    omega

theorem mem_pyRange {step : Nat} (hs : 0 < step) {start stop j : Nat} :
    j ∈ pyRange start stop step ↔
      start ≤ j ∧ j < stop ∧ step ∣ (j - start) := by
  unfold pyRange
  rw [List.mem_range']
  constructor
  · rintro ⟨i, hi, rfl⟩
    have hd : step * i < stop - start := (lt_ceilDiv_iff hs).1 hi
    refine ⟨Nat.le_add_right _ _, by omega, ⟨i, by omega⟩⟩
  · rintro ⟨h1, h2, k, hk⟩
    refine ⟨k, ?_, by omega⟩
    exact (lt_ceilDiv_iff hs).2 (by omega)

theorem pyRange_one (a b : Nat) : pyRange a b 1 = List.range' a (b - a) := by
  simp [pyRange]

/-! ### The effect of a fold of `List.set _ false` on a boolean buffer -/

theorem getD_set_self_false (s : List Bool) (k : Nat) :
    (s.set k false).getD k false = false := by
  simp only [List.getD_eq_getElem?_getD, List.getElem?_set]
  split
  · split <;> simp
  · simp_all

theorem getD_set_ne (s : List Bool) {k i : Nat} (h : k ≠ i) :
    (s.set k false).getD i false = s.getD i false := by
  simp [List.getD_eq_getElem?_getD, List.getElem?_set, h]

theorem getD_foldl_set (g : Nat → Nat) (J : List Nat) (s : List Bool) (i : Nat) :
    (J.foldl (fun a j => a.set (g j) false) s).getD i false
      = (s.getD i false && !(J.any (fun j => g j == i))) := by
  induction J generalizing s with
  | nil => simp
  | cons j J ih =>
    rw [List.foldl_cons, ih, List.any_cons]
    by_cases h : g j = i
    · rw [h, getD_set_self_false]
      simp
    · rw [getD_set_ne s h]
      simp only [Bool.not_or, ← Bool.and_assoc]
      have : (g j == i) = false := by simp [h]
      rw [this]
      simp

theorem length_foldl_set (g : Nat → Nat) (J : List Nat) (s : List Bool) :
    (J.foldl (fun a j => a.set (g j) false) s).length = s.length := by
  induction J generalizing s with
  | nil => rfl
  | cons j J ih => rw [List.foldl_cons, ih, List.length_set]

/-! ### Characterizing which slots a segment's marking phase clears -/

theorem le_ceilMul {low p : Nat} (hp : 0 < p) : low ≤ (low + p - 1) / p * p := by
  have h1 : p * ((low + p - 1) / p) + (low + p - 1) % p = low + p - 1 :=
    Nat.div_add_mod _ _
  have h2 : (low + p - 1) % p < p := Nat.mod_lt _ hp
  rw [Nat.mul_comm]
  omega

theorem ceilMul_le {low p n : Nat} (hp : 0 < p) (hd : p ∣ n) (h : low ≤ n) :
    (low + p - 1) / p * p ≤ n := by
  obtain ⟨m, rfl⟩ := hd
  have h1 : (low + p - 1) / p ≤ m := by
    apply Nat.lt_succ_iff.1
    apply (Nat.div_lt_iff_lt_mul hp).2
    rw [Nat.succ_mul]
    have h2 : low ≤ m * p := by rw [Nat.mul_comm]; exact h
    omega
  calc (low + p - 1) / p * p ≤ m * p := Nat.mul_le_mul_right p h1
  _ = p * m := Nat.mul_comm m p

theorem dvd_startOf (low p : Nat) : p ∣ max (p * p) ((low + p - 1) / p * p) := by
  rcases max_choice (p * p) ((low + p - 1) / p * p) with h | h <;> rw [h]
  · exact dvd_mul_left p p
  · exact dvd_mul_left p _

theorem any_mark_iff {p low high i : Nat} (hp : 0 < p) (hi : low + i ≤ high) :
    ((pyRange (max (p * p) ((low + p - 1) / p * p)) (high + 1) p).any
        (fun j => j - low == i)) = true
      ↔ (p ∣ (low + i) ∧ p * p ≤ low + i) := by
  rw [List.any_eq_true]
  constructor
  · rintro ⟨j, hj, hji⟩
    rw [mem_pyRange hp] at hj
    obtain ⟨hstart, hstop, hdvd⟩ := hj
    have hlowle : low ≤ (low + p - 1) / p * p := le_ceilMul hp
    have hjlow : low ≤ j := le_trans (le_trans hlowle (le_max_right _ _)) hstart
    have hji' : j - low = i := by simpa using hji
    have hjn : j = low + i := by omega
    have hpj : p ∣ j := by
      have hds : p ∣ max (p * p) ((low + p - 1) / p * p) := dvd_startOf low p
      have : j = (j - max (p * p) ((low + p - 1) / p * p)) +
          max (p * p) ((low + p - 1) / p * p) := by omega
      rw [this]
      exact Nat.dvd_add hdvd hds
    refine ⟨hjn ▸ hpj, ?_⟩
    have : p * p ≤ j := le_trans (le_max_left _ _) hstart
    omega
  · rintro ⟨hdvd, hsq⟩
    refine ⟨low + i, ?_, by simp⟩
    rw [mem_pyRange hp]
    refine ⟨?_, by omega, ?_⟩
    · exact max_le hsq (ceilMul_le hp hdvd (Nat.le_add_right _ _))
    · exact Nat.dvd_sub' hdvd (dvd_startOf low p)

theorem getD_markFold (low high : Nat) (smalls : List Nat) (seg : List Bool)
    (i : Nat) :
    (smalls.foldl
        (fun sg p =>
          (pyRange (max (p * p) ((low + p - 1) / p * p)) (high + 1) p).foldl
            (fun s j => s.set (j - low) false) sg)
        seg).getD i false
      = (seg.getD i false &&
          !(smalls.any (fun p =>
            (pyRange (max (p * p) ((low + p - 1) / p * p)) (high + 1) p).any
              (fun j => j - low == i)))) := by
  induction smalls generalizing seg with
  | nil => simp
  | cons p ps ih =>
    rw [List.foldl_cons, ih, List.any_cons]
    have h1 : ((pyRange (max (p * p) ((low + p - 1) / p * p)) (high + 1) p).foldl
          (fun s j => s.set (j - low) false) seg).getD i false
        = (seg.getD i false &&
            !((pyRange (max (p * p) ((low + p - 1) / p * p)) (high + 1) p).any
              (fun j => j - low == i))) :=
      getD_foldl_set (fun j => j - low) _ seg i
    rw [h1, Bool.not_or, Bool.and_assoc]

theorem markSegment_getD (low high : Nat) (smalls : List Nat) (i : Nat)
    (hlh : low ≤ high) (hw : i < high - low + 1) (hps : ∀ p ∈ smalls, 0 < p) :
    (markSegment low high smalls).getD i false
      = decide (∀ p ∈ smalls, ¬(p ∣ (low + i) ∧ p * p ≤ low + i)) := by
  unfold markSegment
  rw [getD_markFold]
  have hrep : (List.replicate (high - low + 1) true).getD i false = true := by
    simp [List.getD_eq_getElem?_getD, List.getElem?_replicate, hw]
  rw [hrep, Bool.true_and]
  have key : (smalls.any fun p =>
      (pyRange (max (p * p) ((low + p - 1) / p * p)) (high + 1) p).any
        (fun j => j - low == i)) = true ↔
      ∃ p ∈ smalls, p ∣ (low + i) ∧ p * p ≤ low + i := by
    rw [List.any_eq_true]
    constructor
    · rintro ⟨p, hpm, h⟩
      exact ⟨p, hpm, (any_mark_iff (hps p hpm) (by omega)).1 h⟩
    · rintro ⟨p, hpm, h⟩
      exact ⟨p, hpm, (any_mark_iff (hps p hpm) (by omega)).2 h⟩
  by_cases h : ∃ p ∈ smalls, p ∣ (low + i) ∧ p * p ≤ low + i
  · rw [key.2 h]
    symm
    rw [Bool.not_true, decide_eq_false_iff_not]
    push_neg
    obtain ⟨p, hpm, hA⟩ := h
    exact ⟨p, hpm, hA⟩
  · have hfalse : (smalls.any fun p =>
        (pyRange (max (p * p) ((low + p - 1) / p * p)) (high + 1) p).any
          (fun j => j - low == i)) = false :=
      Bool.eq_false_iff.2 (fun ht => h (key.1 ht))
    rw [hfalse]
    symm
    rw [Bool.not_false, decide_eq_true_eq]
    intro p hpm hA
    exact h ⟨p, hpm, hA⟩

/-! ### Correctness of `simple_sieve` -/

theorem getD_foldl_set_id (J : List Nat) (s : List Bool) (i : Nat) :
    (J.foldl (fun a j => a.set j false) s).getD i false
      = (s.getD i false && !(J.any (fun j => j == i))) :=
  getD_foldl_set (fun j => j) J s i

theorem length_foldl_set_id (J : List Nat) (s : List Bool) :
    (J.foldl (fun a j => a.set j false) s).length = s.length :=
  length_foldl_set (fun j => j) J s

theorem mem_primesUpTo {q m : Nat} :
    q ∈ primesUpTo m ↔ Nat.Prime q ∧ q ≤ m := by
  simp [primesUpTo, List.mem_filter, List.mem_range, Nat.lt_succ_iff, and_comm]

theorem no_small_factor_iff_prime {n m : Nat} (h2 : 2 ≤ n) (hm : Nat.sqrt n < m) :
    (∀ d, Nat.Prime d → d < m → ¬(d ∣ n ∧ d * d ≤ n)) ↔ Nat.Prime n := by
  constructor
  · intro h
    by_contra hnp
    have hq := Nat.minFac_prime (by omega : n ≠ 1)
    have hqd := Nat.minFac_dvd n
    have hsq : n.minFac * n.minFac ≤ n := by
      have h' := Nat.minFac_sq_le_self (by omega : 0 < n) hnp
      rwa [pow_two] at h'
    have hlt : n.minFac < m := by
      have := Nat.le_sqrt.2 hsq
      omega
    exact h _ hq hlt ⟨hqd, hsq⟩
  · rintro hn d hd hdm ⟨hdvd, hsq⟩
    have hdn : d = n := (Nat.prime_dvd_prime_iff_eq hd hn).1 hdvd
    subst hdn
    have h4 : 2 * d ≤ d * d := Nat.mul_le_mul_right d hd.two_le
    omega

theorem mem_pyRange_sq {a j limit : Nat} (ha : 0 < a) (hj : j ≤ limit) :
    j ∈ pyRange (a * a) (limit + 1) a ↔ (a ∣ j ∧ a * a ≤ j) := by
  rw [mem_pyRange ha]
  constructor
  · rintro ⟨h1, _, h3⟩
    have hda : a ∣ a * a := dvd_mul_left a a
    have hrw : j = (j - a * a) + a * a := by omega
    exact ⟨hrw ▸ Nat.dvd_add h3 hda, h1⟩
  · rintro ⟨h1, h2⟩
    exact ⟨h2, by omega, Nat.dvd_sub' h1 (dvd_mul_left a a)⟩

theorem sieve_step (limit a : Nat) (arr : List Bool) (h2 : 2 ≤ a) (hal : a ≤ limit)
    (hlen : arr.length = limit + 1)
    (hinv : ∀ j, j ≤ limit → (arr.getD j false = true ↔
      (2 ≤ j ∧ ∀ d, Nat.Prime d → d < a → ¬(d ∣ j ∧ d * d ≤ j)))) :
    ((if arr.getD a false then
        (pyRange (a * a) (limit + 1) a).foldl (fun a2 j => a2.set j false) arr
      else arr).length = limit + 1) ∧
    (∀ j, j ≤ limit → ((if arr.getD a false then
        (pyRange (a * a) (limit + 1) a).foldl (fun a2 j => a2.set j false) arr
      else arr).getD j false = true ↔
      (2 ≤ j ∧ ∀ d, Nat.Prime d → d < a + 1 → ¬(d ∣ j ∧ d * d ≤ j)))) := by
  by_cases hpa : Nat.Prime a
  · have hslot : arr.getD a false = true := by
      rw [hinv a hal]
      exact ⟨h2, (no_small_factor_iff_prime h2 (Nat.sqrt_lt_self (by omega))).2 hpa⟩
    rw [hslot]
    simp only [if_true]
    constructor
    · exact (length_foldl_set_id _ arr).trans hlen
    · intro j hj
      rw [getD_foldl_set_id, Bool.and_eq_true, hinv j hj]
      have hany : ((pyRange (a * a) (limit + 1) a).any (fun x => x == j)) = true ↔
          (a ∣ j ∧ a * a ≤ j) := by
        rw [List.any_eq_true]
        constructor
        · rintro ⟨x, hx, hxj⟩
          have : x = j := by simpa using hxj
          subst this
          exact (mem_pyRange_sq (by omega) hj).1 hx
        · intro hA
          exact ⟨j, (mem_pyRange_sq (by omega) hj).2 hA, by simp⟩
      constructor
      · rintro ⟨⟨h2j, hall⟩, hnot⟩
        refine ⟨h2j, fun d hd hda1 hA => ?_⟩
        rcases Nat.lt_succ_iff_lt_or_eq.1 hda1 with hda | rfl
        · exact hall d hd hda hA
        · rw [Bool.not_eq_true', Bool.eq_false_iff] at hnot
          exact hnot (hany.2 hA)
      · rintro ⟨h2j, hall⟩
        refine ⟨⟨h2j, fun d hd hda hA => hall d hd (by omega) hA⟩, ?_⟩
        rw [Bool.not_eq_true', Bool.eq_false_iff]
        intro hA
        exact hall a hpa (by omega) (hany.1 hA)
  · have hslot : arr.getD a false = false := by
      cases hcase : arr.getD a false with
      | false => rfl
      | true =>
        obtain ⟨_, hall⟩ := (hinv a hal).1 hcase
        exact absurd
          ((no_small_factor_iff_prime h2 (Nat.sqrt_lt_self (by omega))).1 hall) hpa
    rw [hslot]
    simp only [Bool.false_eq_true, if_false]
    refine ⟨hlen, fun j hj => ?_⟩
    rw [hinv j hj]
    constructor
    · rintro ⟨h2j, hall⟩
      refine ⟨h2j, fun d hd hda1 hA => ?_⟩
      rcases Nat.lt_succ_iff_lt_or_eq.1 hda1 with hda | rfl
      · exact hall d hd hda hA
      · exact hpa hd
    · rintro ⟨h2j, hall⟩
      exact ⟨h2j, fun d hd hda hA => hall d hd (by omega) hA⟩

theorem sieve_fold_inv (limit : Nat) :
    ∀ (len a : Nat) (arr : List Bool),
      2 ≤ a → a + len ≤ limit + 1 →
      arr.length = limit + 1 →
      (∀ j, j ≤ limit →
        (arr.getD j false = true ↔
          (2 ≤ j ∧ ∀ d, Nat.Prime d → d < a → ¬(d ∣ j ∧ d * d ≤ j)))) →
      (((List.range' a len).foldl
          (fun arr2 i =>
            if arr2.getD i false then
              (pyRange (i * i) (limit + 1) i).foldl (fun a2 j => a2.set j false) arr2
            else arr2)
          arr).length = limit + 1) ∧
      (∀ j, j ≤ limit →
        (((List.range' a len).foldl
            (fun arr2 i =>
              if arr2.getD i false then
                (pyRange (i * i) (limit + 1) i).foldl (fun a2 j => a2.set j false) arr2
              else arr2)
            arr).getD j false = true ↔
          (2 ≤ j ∧ ∀ d, Nat.Prime d → d < a + len → ¬(d ∣ j ∧ d * d ≤ j)))) := by
  intro len
  induction len with
  | zero =>
    intro a arr h2 hle hlen hinv
    simp only [List.range'_zero, List.foldl_nil, Nat.add_zero]
    exact ⟨hlen, hinv⟩
  | succ len ih =>
    intro a arr h2 hle hlen hinv
    rw [List.range'_succ, List.foldl_cons]
    obtain ⟨hlen', hinv'⟩ := sieve_step limit a arr h2 (by omega) hlen hinv
    have hres := ih (a + 1)
      ((if arr.getD a false then
          (pyRange (a * a) (limit + 1) a).foldl (fun a2 j => a2.set j false) arr
        else arr))
      (by omega) (by omega) hlen' hinv'
    have harith : a + 1 + len = a + (len + 1) := by omega
    rw [harith] at hres
    exact hres

theorem init_getD (limit : Nat) :
    ∀ j, j ≤ limit →
      (((List.replicate (limit + 1) true).set 0 false).set 1 false).getD j false
        = decide (2 ≤ j) := by
  intro j hj
  by_cases h0 : j = 0
  · subst h0
    rw [getD_set_ne _ (by omega : (1 : Nat) ≠ 0), getD_set_self_false]
    simp
  · by_cases h1 : j = 1
    · subst h1
      rw [getD_set_self_false]
      simp
    · rw [getD_set_ne _ (by omega : (1 : Nat) ≠ j),
        getD_set_ne _ (by omega : (0 : Nat) ≠ j)]
      simp [List.getD_eq_getElem?_getD, List.getElem?_replicate,
        show j < limit + 1 by omega, show 2 ≤ j by omega]

theorem simple_sieve_eq (limit : Nat) : simple_sieve limit = primesUpTo limit := by
  by_cases hl : limit < 2
  · have h01 : limit = 0 ∨ limit = 1 := by omega
    rcases h01 with rfl | rfl
    · decide
    · decide
  · push_neg at hl
    unfold simple_sieve
    rw [if_neg (by omega)]
    show (List.range (limit + 1)).filter (fun i =>
        ((pyRange 2 (Nat.sqrt limit + 1) 1).foldl
          (fun arr i =>
            if arr.getD i false then
              (pyRange (i * i) (limit + 1) i).foldl (fun a j => a.set j false) arr
            else arr)
          (((List.replicate (limit + 1) true).set 0 false).set 1 false)).getD i false)
      = primesUpTo limit
    rw [pyRange_one]
    have hlen0 : (((List.replicate (limit + 1) true).set 0 false).set 1 false).length
        = limit + 1 := by
      rw [List.length_set, List.length_set, List.length_replicate]
    have hinit : ∀ j, j ≤ limit →
        ((((List.replicate (limit + 1) true).set 0 false).set 1 false).getD j false
            = true ↔
          (2 ≤ j ∧ ∀ d, Nat.Prime d → d < 2 → ¬(d ∣ j ∧ d * d ≤ j))) := by
      intro j hj
      rw [init_getD limit j hj]
      constructor
      · intro h
        have h2j : 2 ≤ j := of_decide_eq_true h
        exact ⟨h2j, fun d hd hd2 _ => by have := hd.two_le; omega⟩
      · rintro ⟨h2j, _⟩
        simp [h2j]
    obtain ⟨_, hinv⟩ := sieve_fold_inv limit (Nat.sqrt limit + 1 - 2) 2
      (((List.replicate (limit + 1) true).set 0 false).set 1 false)
      (le_refl 2) (by have := Nat.sqrt_le_self limit; omega) hlen0 hinit
    have hM1 : 1 ≤ Nat.sqrt limit := Nat.le_sqrt.2 (by omega)
    have harith : 2 + (Nat.sqrt limit + 1 - 2) = Nat.sqrt limit + 1 := by omega
    rw [harith] at hinv
    apply List.filter_congr
    intro j hjmem
    rw [List.mem_range] at hjmem
    have hj : j ≤ limit := by omega
    have hmj : Nat.sqrt j < Nat.sqrt limit + 1 := by
      have := Nat.sqrt_le_sqrt hj
      omega
    by_cases hp : Nat.Prime j
    · have hres : ((List.range' 2 (Nat.sqrt limit + 1 - 2)).foldl
          (fun arr2 i =>
            if arr2.getD i false then
              (pyRange (i * i) (limit + 1) i).foldl (fun a2 j => a2.set j false) arr2
            else arr2)
          (((List.replicate (limit + 1) true).set 0 false).set 1 false)).getD j false
          = true :=
        (hinv j hj).2 ⟨hp.two_le, (no_small_factor_iff_prime hp.two_le hmj).2 hp⟩
      rw [hres]
      simp [hp]
    · have hres : ((List.range' 2 (Nat.sqrt limit + 1 - 2)).foldl
          (fun arr2 i =>
            if arr2.getD i false then
              (pyRange (i * i) (limit + 1) i).foldl (fun a2 j => a2.set j false) arr2
            else arr2)
          (((List.replicate (limit + 1) true).set 0 false).set 1 false)).getD j false
          = false := by
        cases hcase : ((List.range' 2 (Nat.sqrt limit + 1 - 2)).foldl
            (fun arr2 i =>
              if arr2.getD i false then
                (pyRange (i * i) (limit + 1) i).foldl (fun a2 j => a2.set j false) arr2
              else arr2)
            (((List.replicate (limit + 1) true).set 0 false).set 1 false)).getD j false with
        | false => rfl
        | true =>
          obtain ⟨h2j, hall⟩ := (hinv j hj).1 hcase
          exact absurd ((no_small_factor_iff_prime h2j hmj).1 hall) hp
      rw [hres]
      simp [hp]

/-! ### The collection phase of a segment -/

theorem innerPairs_concat (ys : List Nat) (c : Nat) :
    innerPairs (ys ++ [c])
      = innerPairs ys ++ (match ys.getLast? with
          | some lp => [(lp, some c)]
          | none => []) := by
  induction ys with
  | nil => simp [innerPairs]
  | cons a ys ih =>
    cases ys with
    | nil => simp [innerPairs]
    | cons b t =>
      have h1 : (a :: b :: t) ++ [c] = a :: b :: (t ++ [c]) := by simp
      rw [h1,
        show innerPairs (a :: b :: (t ++ [c]))
          = (a, some b) :: innerPairs (b :: (t ++ [c])) from rfl,
        show innerPairs (a :: b :: t) = (a, some b) :: innerPairs (b :: t) from rfl,
        List.getLast?_cons_cons]
      have h2 : (b :: t) ++ [c] = b :: (t ++ [c]) := by simp
      rw [← h2, ih]
      simp

theorem collectSeg_spec (seg : List Bool) :
    ∀ (low : Nat) (ys : List Nat),
      collectSeg low seg (ys, innerPairs ys, ys.getLast?)
        = (ys ++ survivorsFrom low seg,
            innerPairs (ys ++ survivorsFrom low seg),
            (ys ++ survivorsFrom low seg).getLast?) := by
  induction seg with
  | nil =>
    intro low ys
    simp [collectSeg, survivorsFrom]
  | cons b rest ih =>
    intro low ys
    have hunfold : collectSeg low (b :: rest) (ys, innerPairs ys, ys.getLast?)
        = if b && decide (2 ≤ low) then
            collectSeg (low + 1) rest
              (ys ++ [low],
                (match ys.getLast? with
                  | some lp => innerPairs ys ++ [(lp, some low)]
                  | none => innerPairs ys),
                some low)
          else collectSeg (low + 1) rest (ys, innerPairs ys, ys.getLast?) := rfl
    by_cases hb : (b && decide (2 ≤ low)) = true
    · rw [hunfold, if_pos hb]
      have hpairs : (match ys.getLast? with
            | some lp => innerPairs ys ++ [(lp, some low)]
            | none => innerPairs ys)
          = innerPairs (ys ++ [low]) := by
        rw [innerPairs_concat]
        cases ys.getLast? <;> simp
      have hlast : some low = (ys ++ [low]).getLast? := (List.getLast?_concat ys).symm
      rw [hpairs, hlast, ih (low + 1) (ys ++ [low])]
      rw [show survivorsFrom low (b :: rest)
          = [low] ++ survivorsFrom (low + 1) rest from by
        rw [survivorsFrom, if_pos hb]]
      simp
    · rw [hunfold, if_neg hb]
      rw [ih (low + 1) ys]
      rw [show survivorsFrom low (b :: rest)
          = [] ++ survivorsFrom (low + 1) rest from by
        rw [survivorsFrom, if_neg hb]]
      simp

/-! ### Each segment collects exactly the primes of its window -/

theorem survivorsFrom_eq (f : Nat → Bool) :
    ∀ (seg : List Bool) (low : Nat),
      (∀ i, i < seg.length → seg.getD i false = f (low + i)) →
      survivorsFrom low seg
        = (List.range' low seg.length).filter (fun n => f n && decide (2 ≤ n)) := by
  intro seg
  induction seg with
  | nil => intro low _; simp [survivorsFrom]
  | cons b rest ih =>
    intro low hf
    have hb : b = f low := by
      have h0 := hf 0 (by simp)
      simpa using h0
    have hrest : ∀ i, i < rest.length → rest.getD i false = f (low + 1 + i) := by
      intro i hi
      have h1 := hf (i + 1) (by simp; omega)
      have h2 : (b :: rest).getD (i + 1) false = rest.getD i false := by simp
      rw [h2] at h1
      rw [h1]
      congr 1
      omega
    rw [show survivorsFrom low (b :: rest)
        = (if b && decide (2 ≤ low) then [low] else [])
            ++ survivorsFrom (low + 1) rest from rfl]
    rw [ih (low + 1) hrest]
    rw [show (b :: rest).length = rest.length + 1 from rfl, List.range'_succ,
      List.filter_cons]
    subst hb
    by_cases hc : (f low && decide (2 ≤ low)) = true
    · rw [if_pos hc, if_pos hc]
      simp
    · rw [if_neg hc, if_neg hc]
      simp

theorem markSegment_length (low high : Nat) (smalls : List Nat) :
    (markSegment low high smalls).length = high - low + 1 := by
  unfold markSegment
  suffices h : ∀ seg : List Bool,
      (smalls.foldl
        (fun sg p =>
          (pyRange (max (p * p) ((low + p - 1) / p * p)) (high + 1) p).foldl
            (fun s j => s.set (j - low) false) sg)
        seg).length = seg.length by
    rw [h]; exact List.length_replicate _ _
  intro seg
  induction smalls generalizing seg with
  | nil => rfl
  | cons p ps ih =>
    rw [List.foldl_cons, ih]
    exact length_foldl_set (fun j => j - low) _ seg

theorem slot_bool_eq {limit n : Nat} (smalls : List Nat)
    (hsm : smalls = simple_sieve (Nat.sqrt limit + 1)) (hnl : n ≤ limit) :
    (decide (∀ p ∈ smalls, ¬(p ∣ n ∧ p * p ≤ n))
      && decide (2 ≤ n)) = decide (Nat.Prime n) := by
  by_cases h2 : 2 ≤ n
  · rw [decide_eq_true h2, Bool.and_true]
    rw [decide_eq_decide]
    rw [hsm, simple_sieve_eq]
    have hm : Nat.sqrt n < Nat.sqrt limit + 2 := by
      have := Nat.sqrt_le_sqrt hnl
      omega
    rw [← no_small_factor_iff_prime h2 hm]
    constructor
    · intro h d hd hdm hA
      exact h d (mem_primesUpTo.2 ⟨hd, by omega⟩) hA
    · intro h p hp hA
      obtain ⟨hp1, hp2⟩ := mem_primesUpTo.1 hp
      exact h p hp1 (by omega) hA
  · rw [decide_eq_false h2, Bool.and_false]
    symm
    rw [decide_eq_false_iff_not]
    intro hp
    exact h2 hp.two_le

theorem survivors_markSegment {limit low high : Nat} (smalls : List Nat)
    (hsm : smalls = simple_sieve (Nat.sqrt limit + 1)) (hlh : low ≤ high)
    (hhl : high ≤ limit) :
    survivorsFrom low (markSegment low high smalls)
      = (List.range' low (high - low + 1)).filter (fun n => decide (Nat.Prime n)) := by
  have hps : ∀ p ∈ smalls, 0 < p := by
    intro p hp
    rw [hsm, simple_sieve_eq] at hp
    exact (mem_primesUpTo.1 hp).1.pos
  have hchar : ∀ i, i < (markSegment low high smalls).length →
      (markSegment low high smalls).getD i false
        = (fun n => decide (∀ p ∈ smalls, ¬(p ∣ n ∧ p * p ≤ n))) (low + i) := by
    intro i hi
    rw [markSegment_length] at hi
    exact markSegment_getD low high _ i hlh hi hps
  rw [survivorsFrom_eq (fun n => decide (∀ p ∈ smalls, ¬(p ∣ n ∧ p * p ≤ n)))
      (markSegment low high smalls) low hchar, markSegment_length]
  apply List.filter_congr
  intro n hn
  rw [List.mem_range'_1] at hn
  have hn2 : n ≤ limit := by omega
  exact slot_bool_eq smalls hsm hn2

/-! ### The segment loop yields exactly the primes, with the matching trace -/

theorem segLoop_spec (limit s : Nat) (smalls : List Nat)
    (hsm : smalls = simple_sieve (Nat.sqrt limit + 1)) :
    ∀ (fuel low : Nat) (ys : List Nat),
      limit + 1 - low ≤ fuel →
      segLoop limit s smalls low (ys, innerPairs ys, ys.getLast?)
        = (ys ++ (List.range' low (limit + 1 - low)).filter
              (fun n => decide (Nat.Prime n)),
            innerPairs (ys ++ (List.range' low (limit + 1 - low)).filter
              (fun n => decide (Nat.Prime n))),
            (ys ++ (List.range' low (limit + 1 - low)).filter
              (fun n => decide (Nat.Prime n))).getLast?) := by
  intro fuel
  induction fuel with
  | zero =>
    intro low ys hf
    rw [segLoop]
    rw [dif_neg (by omega : ¬ low ≤ limit)]
    rw [show limit + 1 - low = 0 from by omega]
    simp
  | succ fuel ih =>
    intro low ys hf
    by_cases hlow : low ≤ limit
    · rw [segLoop]
      rw [dif_pos hlow]
      set high := if low + s > limit then limit else low + s with hhigh
      have hlh : low ≤ high := by rw [hhigh]; split <;> omega
      have hhl : high ≤ limit := by rw [hhigh]; split <;> omega
      have hcol := collectSeg_spec (markSegment low high smalls) low ys
      rw [survivors_markSegment smalls hsm hlh hhl] at hcol
      rw [hcol]
      have ihs := ih (high + 1)
        (ys ++ (List.range' low (high - low + 1)).filter (fun n => decide (Nat.Prime n)))
        (by omega)
      rw [ihs]
      have hsplit : (List.range' low (high - low + 1)).filter
            (fun n => decide (Nat.Prime n))
          ++ (List.range' (high + 1) (limit + 1 - (high + 1))).filter
            (fun n => decide (Nat.Prime n))
          = (List.range' low (limit + 1 - low)).filter
            (fun n => decide (Nat.Prime n)) := by
        rw [← List.filter_append]
        congr 1
        have h := List.range'_append low (high - low + 1) (limit + 1 - (high + 1)) 1
        rw [one_mul] at h
        rw [show low + (high - low + 1) = high + 1 from by omega] at h
        rw [show limit + 1 - (high + 1) + (high - low + 1) = limit + 1 - low
          from by omega] at h
        exact h
      rw [List.append_assoc, hsplit]
    · rw [segLoop]
      rw [dif_neg hlow]
      rw [show limit + 1 - low = 0 from by omega]
      simp

/-- The central correctness theorem of the generator: for every `limit` and
every `segment_size`, the yielded list is exactly the ordered list of primes
in `[2, limit]`, and the callback trace is the canonical pair stream of that
list. -/
theorem segmented_sieve_correct (limit segment_size : Nat) :
    segmented_sieve limit segment_size
      = (primesUpTo limit, pairStream (primesUpTo limit)) := by
  have h0 : segLoop limit segment_size (simple_sieve (Nat.sqrt limit + 1)) 0 ([], [], none)
      = ((List.range' 0 (limit + 1)).filter (fun n => decide (Nat.Prime n)),
          innerPairs ((List.range' 0 (limit + 1)).filter (fun n => decide (Nat.Prime n))),
          ((List.range' 0 (limit + 1)).filter (fun n => decide (Nat.Prime n))).getLast?) := by
    have h := segLoop_spec limit segment_size (simple_sieve (Nat.sqrt limit + 1)) rfl
      (limit + 1) 0 [] (by omega)
    simpa using h
  have hpr : primesUpTo limit
      = (List.range' 0 (limit + 1)).filter (fun n => decide (Nat.Prime n)) := by
    rw [primesUpTo, List.range_eq_range']
  unfold segmented_sieve
  show (match segLoop limit segment_size (simple_sieve (Nat.sqrt limit + 1)) 0
        ([], [], none) with
    | (ys, ps, some lp) => (ys, ps ++ [(lp, none)])
    | (ys, ps, none) => (ys, ps))
    = (primesUpTo limit, pairStream (primesUpTo limit))
  rw [h0, ← hpr]
  cases hY : (primesUpTo limit).getLast? with
  | none => simp [pairStream, hY]
  | some lp => simp [pairStream, hY]

/-! ### Basic equations of the accumulator's mapping -/

theorem lookup_store_self (m : GapMap) (g : Int) (f : GapFamily) :
    List.lookup g (store m g f) = some f := by
  induction m with
  | nil => simp [store, List.lookup]
  | cons kv rest ih =>
    rw [show store (kv :: rest) g f
        = if kv.1 = g then (g, f) :: rest else kv :: store rest g f from rfl]
    by_cases h : kv.1 = g
    · rw [if_pos h]
      simp [List.lookup]
    · rw [if_neg h]
      have hbeq : (g == kv.1) = false := by
        simp [Ne.symm h]
      simp [List.lookup, hbeq, ih]

theorem lookup_store_ne (m : GapMap) {g g' : Int} (f : GapFamily) (h : g' ≠ g) :
    List.lookup g' (store m g f) = List.lookup g' m := by
  induction m with
  | nil =>
    have hbeq : (g' == g) = false := by simp [h]
    simp [store, List.lookup, hbeq]
  | cons kv rest ih =>
    rw [show store (kv :: rest) g f
        = if kv.1 = g then (g, f) :: rest else kv :: store rest g f from rfl]
    by_cases hk : kv.1 = g
    · rw [if_pos hk]
      have hbeq : (g' == g) = false := by simp [h]
      subst hk
      simp [List.lookup, hbeq]
    · rw [if_neg hk]
      simp [List.lookup, ih]

theorem findD_store_self (m : GapMap) (g : Int) (f : GapFamily) :
    findD (store m g f) g = f := by
  rw [findD, lookup_store_self]
  rfl

theorem findD_store_ne (m : GapMap) {g g' : Int} (f : GapFamily) (h : g' ≠ g) :
    findD (store m g f) g' = findD m g' := by
  rw [findD, lookup_store_ne m f h, findD]

theorem sumCounts_store (m : GapMap) (g : Int) (f : GapFamily) :
    ((store m g f).map (fun kv => kv.2.count)).sum + (findD m g).count
      = (m.map (fun kv => kv.2.count)).sum + f.count := by
  induction m with
  | nil => simp [store, findD, List.lookup, emptyFamily]
  | cons kv rest ih =>
    rw [show store (kv :: rest) g f
        = if kv.1 = g then (g, f) :: rest else kv :: store rest g f from rfl]
    by_cases h : kv.1 = g
    · rw [if_pos h]
      have hfind : findD (kv :: rest) g = kv.2 := by
        rw [findD]
        subst h
        simp [List.lookup]
      rw [hfind]
      simp [List.map_cons, List.sum_cons]
      omega
    · rw [if_neg h]
      have hfind : findD (kv :: rest) g = findD rest g := by
        rw [findD, findD]
        have hbeq : (g == kv.1) = false := by simp [Ne.symm h]
        simp [List.lookup, hbeq]
      rw [hfind]
      simp only [List.map_cons, List.sum_cons]
      omega

/-! ### Unfolded step equations of `process_prime` and `runAnalyzer` -/

theorem process_prime_none (s : GapAnalyzer) (p : Nat) :
    process_prime s p none = { s with total_primes := s.total_primes + 1 } := rfl

theorem process_prime_some (s : GapAnalyzer) (p np : Nat) :
    process_prime s p (some np)
      = { gap_data :=
            store s.gap_data ((np : Int) - (p : Int))
              { count := (findD s.gap_data ((np : Int) - (p : Int))).count + 1
                product :=
                  (findD s.gap_data ((np : Int) - (p : Int))).product * contribTerm p
                log_product :=
                  (findD s.gap_data ((np : Int) - (p : Int))).log_product
                    + Real.log ((contribTerm p : ℚ) : ℝ)
                primes :=
                  if (findD s.gap_data ((np : Int) - (p : Int))).primes.length < 20
                  then (findD s.gap_data ((np : Int) - (p : Int))).primes ++ [p]
                  else (findD s.gap_data ((np : Int) - (p : Int))).primes }
          total_primes := s.total_primes + 1
          last_prime := s.last_prime } := rfl

theorem runAnalyzer_snoc (pairs : List (Nat × Option Nat)) (pr : Nat × Option Nat) :
    runAnalyzer (pairs ++ [pr]) = process_prime (runAnalyzer pairs) pr.1 pr.2 := by
  rw [runAnalyzer, runAnalyzer, List.foldl_append, List.foldl_cons, List.foldl_nil]

theorem delivered_append (a b : List (Nat × Option Nat)) (g : Int) :
    delivered (a ++ b) g = delivered a g ++ delivered b g := by
  rw [delivered, delivered, delivered, List.filterMap_append]

/-! ### The running invariant of the gap accumulator -/

theorem analyzer_inv (pairs : List (Nat × Option Nat)) (g : Int) :
    (List.lookup g (runAnalyzer pairs).gap_data = none ↔ delivered pairs g = []) ∧
    (findD (runAnalyzer pairs).gap_data g).count = (delivered pairs g).length ∧
    (findD (runAnalyzer pairs).gap_data g).primes = (delivered pairs g).take 20 ∧
    (findD (runAnalyzer pairs).gap_data g).product
      = ((delivered pairs g).map contribTerm).prod ∧
    (findD (runAnalyzer pairs).gap_data g).log_product
      = ((delivered pairs g).map
          (fun p => Real.log ((contribTerm p : ℚ) : ℝ))).sum := by
  induction pairs using List.reverseRecOn with
  | nil =>
    refine ⟨by simp [runAnalyzer, initAnalyzer, delivered, List.lookup], ?_, ?_, ?_, ?_⟩ <;>
      simp [runAnalyzer, initAnalyzer, findD, emptyFamily, delivered, List.lookup]
  | append_singleton pairs pr ih =>
    obtain ⟨ih0, ih1, ih2, ih3, ih4⟩ := ih
    rw [runAnalyzer_snoc, delivered_append]
    obtain ⟨p, np⟩ := pr
    cases np with
    | none =>
      rw [process_prime_none]
      have hdel : delivered [(p, none)] g = [] := rfl
      rw [hdel, List.append_nil]
      exact ⟨ih0, ih1, ih2, ih3, ih4⟩
    | some np =>
      rw [process_prime_some]
      by_cases hg : ((np : Int) - (p : Int)) = g
      · rw [hg]
        have hdel : delivered [(p, some np)] g = [p] := by
          simp [delivered, hg]
        rw [hdel]
        rw [findD_store_self]
        refine ⟨?_, ?_, ?_, ?_, ?_⟩
        · rw [lookup_store_self]
          constructor
          · intro h; exact absurd h (by simp)
          · intro h; exact absurd h (by simp)
        · simp only [ih1, List.length_append, List.length_cons, List.length_nil]
        · rw [ih2]
          by_cases hlen : (delivered pairs g).length < 20
          · rw [List.take_of_length_le (le_of_lt hlen)]
            rw [if_pos hlen]
            rw [List.take_of_length_le (by simp; omega)]
          · rw [if_neg (by rw [List.length_take]; omega)]
            rw [List.take_append_of_le_length (by omega)]
        · rw [ih3, List.map_append, List.prod_append]
          simp
        · rw [ih4, List.map_append, List.sum_append]
          simp
      · have hdel : delivered [(p, some np)] g = [] := by
          simp [delivered, hg]
        rw [hdel, List.append_nil]
        rw [findD_store_ne _ _ (fun h => hg h.symm)]
        refine ⟨?_, ih1, ih2, ih3, ih4⟩
        rw [lookup_store_ne _ _ (fun h => hg h.symm)]
        exact ih0

/-! ### Totals, pair-stream shape, and positivity of contribution terms -/

theorem sumCounts_process_none (s : GapAnalyzer) (p : Nat) :
    sumCounts (process_prime s p none) = sumCounts s := rfl

theorem total_process (s : GapAnalyzer) (p : Nat) (np : Option Nat) :
    (process_prime s p np).total_primes = s.total_primes + 1 := by
  cases np <;> rfl

theorem sumCounts_process_some (s : GapAnalyzer) (p np : Nat) :
    sumCounts (process_prime s p (some np)) = sumCounts s + 1 := by
  have h1 : sumCounts (process_prime s p (some np))
      = ((store s.gap_data ((np : Int) - (p : Int))
          { count := (findD s.gap_data ((np : Int) - (p : Int))).count + 1
            product := (findD s.gap_data ((np : Int) - (p : Int))).product
              * contribTerm p
            log_product := (findD s.gap_data ((np : Int) - (p : Int))).log_product
              + Real.log ((contribTerm p : ℚ) : ℝ)
            primes :=
              if (findD s.gap_data ((np : Int) - (p : Int))).primes.length < 20
              then (findD s.gap_data ((np : Int) - (p : Int))).primes ++ [p]
              else (findD s.gap_data ((np : Int) - (p : Int))).primes }).map
          (fun kv => kv.2.count)).sum := rfl
  have hs := sumCounts_store s.gap_data ((np : Int) - (p : Int))
    { count := (findD s.gap_data ((np : Int) - (p : Int))).count + 1
      product := (findD s.gap_data ((np : Int) - (p : Int))).product
        * contribTerm p
      log_product := (findD s.gap_data ((np : Int) - (p : Int))).log_product
        + Real.log ((contribTerm p : ℚ) : ℝ)
      primes :=
        if (findD s.gap_data ((np : Int) - (p : Int))).primes.length < 20
        then (findD s.gap_data ((np : Int) - (p : Int))).primes ++ [p]
        else (findD s.gap_data ((np : Int) - (p : Int))).primes }
  dsimp only at hs
  have h2 : sumCounts s = (s.gap_data.map (fun kv => kv.2.count)).sum := rfl
  rw [h1, h2]
  omega

theorem analyzer_totals (pairs : List (Nat × Option Nat)) :
    sumCounts (runAnalyzer pairs)
        = (pairs.filter (fun pr => pr.2.isSome)).length ∧
      (runAnalyzer pairs).total_primes = pairs.length := by
  induction pairs using List.reverseRecOn with
  | nil => constructor <;> simp [runAnalyzer, initAnalyzer, sumCounts]
  | append_singleton pairs pr ih =>
    obtain ⟨ih1, ih2⟩ := ih
    obtain ⟨p, np⟩ := pr
    rw [runAnalyzer_snoc]
    constructor
    · cases np with
      | none =>
        rw [sumCounts_process_none, ih1]
        simp [List.filter_append]
      | some np =>
        rw [sumCounts_process_some, ih1]
        simp [List.filter_append]
    · rw [total_process, ih2]
      simp

theorem innerPairs_length (ys : List Nat) :
    (innerPairs ys).length = ys.length - 1 := by
  induction ys with
  | nil => rfl
  | cons a t ih =>
    cases t with
    | nil => rfl
    | cons b t2 =>
      rw [show innerPairs (a :: b :: t2) = (a, some b) :: innerPairs (b :: t2)
        from rfl]
      rw [List.length_cons, ih]
      simp

theorem innerPairs_mem_isSome {ys : List Nat} :
    ∀ pr ∈ innerPairs ys, pr.2.isSome = true := by
  induction ys with
  | nil => intro pr h; exact absurd h (by simp [innerPairs])
  | cons a t ih =>
    cases t with
    | nil => intro pr h; exact absurd h (by simp [innerPairs])
    | cons b t2 =>
      intro pr h
      rw [show innerPairs (a :: b :: t2) = (a, some b) :: innerPairs (b :: t2)
        from rfl] at h
      rcases List.mem_cons.1 h with rfl | h2
      · rfl
      · exact ih pr h2

theorem filter_isSome_pairStream (ys : List Nat) :
    ((pairStream ys).filter (fun pr => pr.2.isSome)).length = ys.length - 1 := by
  rw [pairStream, List.filter_append]
  have h1 : (innerPairs ys).filter (fun pr => pr.2.isSome) = innerPairs ys :=
    List.filter_eq_self.2 innerPairs_mem_isSome
  rw [h1]
  cases hY : ys.getLast? with
  | none => simp [innerPairs_length]
  | some lp => simp [innerPairs_length]

theorem pairStream_length {ys : List Nat} (h : ys ≠ []) :
    (pairStream ys).length = ys.length := by
  rw [pairStream]
  cases hY : ys.getLast? with
  | none => exact absurd (List.getLast?_eq_none_iff.1 hY) h
  | some lp =>
    rw [List.length_append, innerPairs_length]
    have : 1 ≤ ys.length := List.length_pos.2 h
    simp
    omega

theorem contribTerm_pos {p : Nat} (hp : 2 ≤ p) : 0 < contribTerm p := by
  rw [contribTerm]
  have h2 : (2 : ℚ) ≤ (p : ℚ) := by exact_mod_cast hp
  apply div_pos
  · nlinarith
  · nlinarith

theorem log_prod_of_pos (L : List ℚ) (h : ∀ x ∈ L, 0 < x) :
    Real.log ((L.prod : ℚ) : ℝ)
      = (L.map (fun x => Real.log ((x : ℚ) : ℝ))).sum := by
  induction L with
  | nil => simp
  | cons x t ih =>
    have hx : 0 < x := h x (by simp)
    have ht : ∀ y ∈ t, 0 < y := fun y hy => h y (by simp [hy])
    have htp : 0 < t.prod := List.prod_pos ht
    rw [List.prod_cons, List.map_cons, List.sum_cons]
    have hx' : (0 : ℝ) < ((x : ℚ) : ℝ) := by exact_mod_cast hx
    have htp' : (0 : ℝ) < ((t.prod : ℚ) : ℝ) := by exact_mod_cast htp
    rw [show ((x * t.prod : ℚ) : ℝ) = ((x : ℚ) : ℝ) * ((t.prod : ℚ) : ℝ) from by
      push_cast; ring]
    rw [Real.log_mul (ne_of_gt hx') (ne_of_gt htp')]
    rw [ih ht]

theorem delivered_mem {pairs : List (Nat × Option Nat)} {g : Int} {q : Nat}
    (h : q ∈ delivered pairs g) : ∃ pr ∈ pairs, pr.1 = q := by
  rw [delivered] at h
  rw [List.mem_filterMap] at h
  obtain ⟨pr, hpr, hf⟩ := h
  refine ⟨pr, hpr, ?_⟩
  cases hnp : pr.2 with
  | none => rw [hnp] at hf; exact absurd hf (by simp)
  | some np =>
    rw [hnp] at hf
    rw [show (match some np with
        | some np => if (np : Int) - (pr.1 : Int) = g then some pr.1 else none
        | none => none)
        = (if (np : Int) - (pr.1 : Int) = g then some pr.1 else none)
      from rfl] at hf
    by_cases hc : ((np : Int) - (pr.1 : Int) = g)
    · rw [if_pos hc] at hf
      exact Option.some_injective _ hf
    · rw [if_neg hc] at hf
      exact absurd hf (by simp)

/-! ### The claims -/

/-- C1: for every limit in {0, 1, 2, 3, 100, 10000, 1000003} and the default
segment size 1000000, the list of values produced by `segmented_sieve` equals
the ordered list of primes in `[2, limit]` of the trusted reference
`primesUpTo` (built directly from `Nat.Prime`); in particular, for every
limit, a value is yielded iff it is a prime not exceeding the limit. -/
theorem claim_C1 :
    (segmented_sieve 0 1000000).1 = primesUpTo 0 ∧
    (segmented_sieve 1 1000000).1 = primesUpTo 1 ∧
    (segmented_sieve 2 1000000).1 = primesUpTo 2 ∧
    (segmented_sieve 3 1000000).1 = primesUpTo 3 ∧
    (segmented_sieve 100 1000000).1 = primesUpTo 100 ∧
    (segmented_sieve 10000 1000000).1 = primesUpTo 10000 ∧
    (segmented_sieve 1000003 1000000).1 = primesUpTo 1000003 ∧
    (∀ limit q : Nat,
      q ∈ (segmented_sieve limit 1000000).1 ↔ (Nat.Prime q ∧ q ≤ limit)) := by
  refine ⟨?_, ?_, ?_, ?_, ?_, ?_, ?_, ?_⟩
  · simp [segmented_sieve_correct]
  · simp [segmented_sieve_correct]
  · simp [segmented_sieve_correct]
  · simp [segmented_sieve_correct]
  · simp [segmented_sieve_correct]
  · simp [segmented_sieve_correct]
  · simp [segmented_sieve_correct]
  · intro limit q
    rw [show (segmented_sieve limit 1000000).1 = primesUpTo limit from by
      rw [segmented_sieve_correct]]
    exact mem_primesUpTo

/-- C2: for every limit and every segment size in {1, 17, 1000, 1000000}, the
sequence yielded by `segmented_sieve` is strictly increasing (pairwise `<` in
emission order), hence contains no duplicates. -/
theorem claim_C2 : ∀ limit : Nat,
    (List.Pairwise (· < ·) (segmented_sieve limit 1).1 ∧
      (segmented_sieve limit 1).1.Nodup) ∧
    (List.Pairwise (· < ·) (segmented_sieve limit 17).1 ∧
      (segmented_sieve limit 17).1.Nodup) ∧
    (List.Pairwise (· < ·) (segmented_sieve limit 1000).1 ∧
      (segmented_sieve limit 1000).1.Nodup) ∧
    (List.Pairwise (· < ·) (segmented_sieve limit 1000000).1 ∧
      (segmented_sieve limit 1000000).1.Nodup) := by
  have key : ∀ s limit : Nat, List.Pairwise (· < ·) (segmented_sieve limit s).1 := by
    intro s limit
    rw [show (segmented_sieve limit s).1 = primesUpTo limit from by
      rw [segmented_sieve_correct]]
    rw [primesUpTo]
    exact List.Pairwise.sublist (List.filter_sublist _) (List.pairwise_lt_range _)
  intro limit
  have nd : ∀ s : Nat, ((segmented_sieve limit s).1).Nodup := fun s =>
    (key s limit).imp (fun h => ne_of_lt h)
  exact ⟨⟨key 1 limit, nd 1⟩, ⟨key 17 limit, nd 17⟩,
    ⟨key 1000 limit, nd 1000⟩, ⟨key 1000000 limit, nd 1000000⟩⟩

/-- C3: for a fixed limit, any two positive segment sizes yield the same prime
sequence and the same callback trace, so feeding the trace to a fresh
`GapAnalyzer` via `process_prime` ends in the same final state (same gap
families with the same counts, products, log sums, and sample lists): the
result is segment-size-invariant. -/
theorem claim_C3 : ∀ (limit s1 s2 : Nat), 0 < s1 → 0 < s2 →
    (segmented_sieve limit s1).1 = (segmented_sieve limit s2).1 ∧
      runAnalyzer (segmented_sieve limit s1).2
        = runAnalyzer (segmented_sieve limit s2).2 := by
  intro limit s1 s2 _ _
  rw [segmented_sieve_correct, segmented_sieve_correct]
  exact ⟨rfl, rfl⟩

theorem claim_C3_witness :
    (segmented_sieve 10 1).1 = (segmented_sieve 10 17).1 ∧
      runAnalyzer (segmented_sieve 10 1).2 = runAnalyzer (segmented_sieve 10 17).2 :=
  claim_C3 10 1 17 (by decide) (by decide)

/-- C4: after the accumulator has consumed the full pair stream of a limit
with at least one prime (i.e. `2 ≤ limit`), the sum of the `count` fields over
all gap families is `total_primes - 1`: every prime but the last contributes
exactly one gap, and the sentinel-paired final prime increments only
`total_primes`. -/
theorem claim_C4 : ∀ (limit segment_size : Nat), 2 ≤ limit →
    sumCounts (runAnalyzer (segmented_sieve limit segment_size).2) + 1
      = (runAnalyzer (segmented_sieve limit segment_size).2).total_primes := by
  intro limit s hl
  have hpairs : (segmented_sieve limit s).2 = pairStream (primesUpTo limit) := by
    rw [segmented_sieve_correct]
  rw [hpairs]
  obtain ⟨h1, h2⟩ := analyzer_totals (pairStream (primesUpTo limit))
  rw [h1, h2]
  have hY : primesUpTo limit ≠ [] := by
    intro h
    have h2m : 2 ∈ primesUpTo limit := mem_primesUpTo.2 ⟨Nat.prime_two, hl⟩
    rw [h] at h2m
    exact absurd h2m (by simp)
  rw [filter_isSome_pairStream, pairStream_length hY]
  have hpos : 1 ≤ (primesUpTo limit).length := List.length_pos.2 hY
  omega

theorem claim_C4_witness :
    sumCounts (runAnalyzer (segmented_sieve 10 1000000).2) + 1
      = (runAnalyzer (segmented_sieve 10 1000000).2).total_primes :=
  claim_C4 10 1000000 (by decide)

/-- C5: for every gap family whose count does not exceed the sample cap 20,
the family's `product` field is the literal product of the contribution terms
`p²/(p²−1)` over exactly the witness primes recorded in its `primes` list
(the family starts from the identity product, zero log sum and zero count). -/
theorem claim_C5 : ∀ (pairs : List (Nat × Option Nat)), wfPairs pairs →
    ∀ g : Int, (findD (runAnalyzer pairs).gap_data g).count ≤ 20 →
      (findD (runAnalyzer pairs).gap_data g).product
        = ((findD (runAnalyzer pairs).gap_data g).primes.map contribTerm).prod := by
  intro pairs _ g hcap
  obtain ⟨_, h1, h2, h3, _⟩ := analyzer_inv pairs g
  rw [h1] at hcap
  rw [h3, h2, List.take_of_length_le hcap]

theorem claim_C5_witness :
    (findD (runAnalyzer [(2, some 3)]).gap_data 1).product
      = ((findD (runAnalyzer [(2, some 3)]).gap_data 1).primes.map contribTerm).prod :=
  claim_C5 [(2, some 3)] (by simp [wfPairs]) 1 (by decide)

/-- C6: for every gap family, after any sequence of `process_prime` calls on
primes `≥ 2` (the domain on which the Python code raises no exception), the
`log_product` field equals the natural logarithm of the `product` field
exactly — each call adds the log of precisely the term it multiplies in, so in
the exact-arithmetic embedding of `Decimal` the tolerance is zero. -/
theorem claim_C6 : ∀ (pairs : List (Nat × Option Nat)), wfPairs pairs →
    ∀ g : Int, (findD (runAnalyzer pairs).gap_data g).log_product
      = Real.log (((findD (runAnalyzer pairs).gap_data g).product : ℚ) : ℝ) := by
  intro pairs hwf g
  obtain ⟨_, _, _, h3, h4⟩ := analyzer_inv pairs g
  have hpos : ∀ x ∈ (delivered pairs g).map contribTerm, (0 : ℚ) < x := by
    intro x hx
    rw [List.mem_map] at hx
    obtain ⟨q, hq, rfl⟩ := hx
    obtain ⟨pr, hpr, rfl⟩ := delivered_mem hq
    exact contribTerm_pos (hwf pr hpr)
  rw [h4, h3, log_prod_of_pos _ hpos, List.map_map]
  rfl

theorem claim_C6_witness :
    (findD (runAnalyzer [(2, some 3)]).gap_data 1).log_product
      = Real.log (((findD (runAnalyzer [(2, some 3)]).gap_data 1).product : ℚ) : ℝ) :=
  claim_C6 [(2, some 3)] (by simp [wfPairs]) 1

/-- C7: the code does NOT fail on a non-increasing pair.  Feeding the pair
`(5, 3)` (successor not greater than the prime) to a fresh accumulator raises
nothing and silently records data under the non-positive gap key `-2`:
the key is present, its family has count 1 and witness prime 5, and
`total_primes` was incremented.  This refutes the claim that `process_prime`
aborts loudly on such input. -/
theorem claim_C7_counterexample :
    List.lookup (-2 : Int) (runAnalyzer [(5, some 3)]).gap_data
        = some (findD (runAnalyzer [(5, some 3)]).gap_data (-2)) ∧
      (findD (runAnalyzer [(5, some 3)]).gap_data (-2)).count = 1 ∧
      (findD (runAnalyzer [(5, some 3)]).gap_data (-2)).primes = [5] ∧
      (runAnalyzer [(5, some 3)]).total_primes = 1 :=
  ⟨rfl, rfl, rfl, rfl⟩

/-- C8: the code does NOT fail fast on `segment_size ≤ 0`.  With
`limit = 10` and `segment_size = -1`, the loop-variable update of the
`while low <= limit` loop maps the initial state `(low, high) = (0, -1)` to
itself while the loop guard `low ≤ limit` holds, so every iterate of the loop
leaves the state unchanged: the while loop runs forever instead of reporting
the invalid configuration.  This refutes the fail-fast claim. -/
theorem claim_C8_counterexample :
    (∀ n : Nat, (segLoopVars 10 (-1))^[n] (0, -1) = (0, -1)) ∧ ((0 : Int) ≤ 10) := by
  constructor
  · intro n
    exact Function.iterate_fixed (by decide) n
  · decide

/-- C9: for every `sqrt_limit ≥ 0`, `simple_sieve` returns the ordered
sequence of all primes up to `sqrt_limit`; in particular it returns the empty
sequence without failing below 2 and exactly `[2]` at 2. -/
theorem claim_C9 :
    (∀ limit : Nat, simple_sieve limit = primesUpTo limit) ∧
    (∀ limit : Nat, List.Pairwise (· < ·) (simple_sieve limit)) ∧
    simple_sieve 0 = [] ∧ simple_sieve 1 = [] ∧ simple_sieve 2 = [2] := by
  refine ⟨simple_sieve_eq, ?_, by decide, by decide, ?_⟩
  · intro limit
    rw [simple_sieve_eq, primesUpTo]
    exact List.Pairwise.sublist (List.filter_sublist _) (List.pairwise_lt_range _)
  · rw [simple_sieve_eq]
    decide

/-- C10: after any sequence of `process_prime` calls on primes `≥ 2` (the
domain on which the Python code raises no exception), every gap family
present in the mapping has `count ≥ 1`, its sample list has length
`min count 20`, and the sample list consists of exactly the first
`min count 20` primes delivered for that gap, in delivery order. -/
theorem claim_C10 : ∀ (pairs : List (Nat × Option Nat)), wfPairs pairs →
    ∀ (g : Int) (fam : GapFamily),
      List.lookup g (runAnalyzer pairs).gap_data = some fam →
      1 ≤ fam.count ∧
        fam.primes.length = min fam.count 20 ∧
        fam.primes = (delivered pairs g).take 20 ∧
        fam.count = (delivered pairs g).length := by
  intro pairs _ g fam hlook
  obtain ⟨h0, h1, h2, _, _⟩ := analyzer_inv pairs g
  have hfind : findD (runAnalyzer pairs).gap_data g = fam := by
    rw [findD, hlook]
    rfl
  rw [← hfind]
  have hne : delivered pairs g ≠ [] := by
    intro h
    have hnone := h0.2 h
    rw [hlook] at hnone
    exact absurd hnone (by simp)
  refine ⟨?_, ?_, h2, h1⟩
  · rw [h1]
    have := List.length_pos.2 hne
    omega
  · rw [h2, h1, List.length_take]
    exact Nat.min_comm _ _

theorem claim_C10_witness :
    1 ≤ (findD (runAnalyzer [(2, some 3)]).gap_data 1).count ∧
      (findD (runAnalyzer [(2, some 3)]).gap_data 1).primes.length
        = min (findD (runAnalyzer [(2, some 3)]).gap_data 1).count 20 ∧
      (findD (runAnalyzer [(2, some 3)]).gap_data 1).primes
        = (delivered [(2, some 3)] 1).take 20 ∧
      (findD (runAnalyzer [(2, some 3)]).gap_data 1).count
        = (delivered [(2, some 3)] 1).length :=
  claim_C10 [(2, some 3)] (by simp [wfPairs]) 1 _ rfl
